import Mathlib

/- Shallow embedding of the RPN utility code in GTSDB_RPN_Train.ipynb.

   numpy / Keras float tensors are modelled as functions from Fin-indexed
   coordinates to rationals; np.log and K.log are threaded through as an
   abstract function parameter, so every definition stays executable.
   Rational division is total (x / 0 = 0); every claim that touches a
   quotient carries the positivity facts that make the quotient the real
   one. -/

/-- Axis-aligned box in the notebook's layout: a length-4 slice
ordered y1, x1, y2, x2. -/
structure Box where
  y1 : ℚ
  x1 : ℚ
  y2 : ℚ
  x2 : ℚ
deriving DecidableEq, Repr

/-- Componentwise np.minimum of two boxes (length-4 arrays). -/
def Box.cmin (b1 b2 : Box) : Box :=
  ⟨min b1.y1 b2.y1, min b1.x1 b2.x1, min b1.y2 b2.y2, min b1.x2 b2.x2⟩

/-- Componentwise np.maximum of two boxes (length-4 arrays). -/
def Box.cmax (b1 b2 : Box) : Box :=
  ⟨max b1.y1 b2.y1, max b1.x1 b2.x1, max b1.y2 b2.y2, max b1.x2 b2.x2⟩

/-- def intersect(b1, b2):
      m = np.minimum(b1,b2); M = np.maximum(b1,b2)
      h = np.maximum(m[...,2] - M[...,0], 0)
      w = np.maximum(m[...,3] - M[...,1], 0)
      return w*h
The vectorized form acts independently at each anchor slot, so the
embedding is per box pair. -/
def intersect (b1 b2 : Box) : ℚ :=
  let m := Box.cmin b1 b2
  let M := Box.cmax b1 b2
  let h := max (m.y2 - M.y1) 0
  let w := max (m.x2 - M.x1) 0
  w * h

/-- def union(b1, b2, iarea):
      a1 = (b1[...,2]-b1[...,0]) * (b1[...,3]-b1[...,1])
      a2 = (b2[...,2]-b2[...,0]) * (b2[...,3]-b2[...,1])
      return a1 + a2 - iarea -/
def union (b1 b2 : Box) (iarea : ℚ) : ℚ :=
  let a1 := (b1.y2 - b1.y1) * (b1.x2 - b1.x1)
  let a2 := (b2.y2 - b2.y1) * (b2.x2 - b2.x1)
  a1 + a2 - iarea

/-- def iou(b1, b2): iarea = intersect(b1, b2); uarea = union(b1, b2, iarea);
      return iarea/uarea
In ℚ the quotient is 0 when uarea = 0 (numpy would emit nan/inf there);
the claims about iou all come with the hypotheses that exclude that case. -/
def iou (b1 b2 : Box) : ℚ :=
  let iarea := intersect b1 b2
  let uarea := union b1 b2 iarea
  iarea / uarea

/-- Signed area (y2-y1)*(x2-x1) of a box, the a1/a2 terms of union. -/
def boxArea (b : Box) : ℚ := (b.y2 - b.y1) * (b.x2 - b.x1)

/-- Area of the geometric intersection of two well-formed boxes:
the product of the per-axis overlaps clamped at 0 (spec-side notion,
to be compared with the code's intersect). -/
def overlapArea (b1 b2 : Box) : ℚ :=
  max (min b1.y2 b2.y2 - max b1.y1 b2.y1) 0 *
    max (min b1.x2 b2.x2 - max b1.x1 b2.x1) 0

/-- Both corner pairs of the box are ordered: y1 ≤ y2 and x1 ≤ x2. -/
def wellFormed (b : Box) : Prop := b.y1 ≤ b.y2 ∧ b.x1 ≤ b.x2

instance (b : Box) : Decidable (wellFormed b) := by
  unfold wellFormed; infer_instance

/-- def get_anchors(rows, cols, sizes, stride):
      return np.expand_dims(np.tile(np.indices((rows,cols)).transpose((1,2,0))
               * stride + .5, 2), axis=2).repeat(len(sizes), axis=2)
           + np.repeat(np.expand_dims(np.array(sizes), axis=1), 4, axis=1)
               * [-.5, -.5, .5, .5]
First summand: at grid cell (i,j) the 2-vector (i,j) is scaled by stride,
shifted by .5 and tiled twice, giving the component pattern [y,x,y,x]
(component c picks y when c is even, x when c is odd), independent of the
anchor slot after the repeat over sizes.  Second summand: each size s
becomes the row [s,s,s,s] and is multiplied by [-.5,-.5,.5,.5]. -/
def get_anchors (rows cols : ℕ) (sizes : List ℚ) (stride : ℚ) :
    Fin rows → Fin cols → Fin sizes.length → Fin 4 → ℚ :=
  fun i j a c =>
    ((if c.val % 2 = 0 then (i.val : ℚ) else (j.val : ℚ)) * stride + 1/2)
      + sizes.get a * (if c.val < 2 then -(1/2) else 1/2)

/-- def coords2param(ancs, gtbs):
      wa = ancs[...,3] - ancs[...,1]
      ha = ancs[...,2] - ancs[...,0]
      tx = (gtbs[...,1] - ancs[...,1]) / wa
      ty = (gtbs[...,1] - ancs[...,1]) / ha
      tw = np.log((gtbs[...,3] - gtbs[...,1]) / wa)
      th = np.log((gtbs[...,2] - gtbs[...,0]) / ha)
      return np.stack([tx,ty,tw,th], axis=-1)
The embedding mirrors the source line by line; in particular the ty line
reads component 1 (the x coordinates) of both arrays, exactly as the
notebook does.  np.log is the parameter log. -/
def coords2param (log : ℚ → ℚ) (anc gtb : Box) : Fin 4 → ℚ := fun c =>
  let wa := anc.x2 - anc.x1
  let ha := anc.y2 - anc.y1
  if c.val = 0 then (gtb.x1 - anc.x1) / wa
  else if c.val = 1 then (gtb.x1 - anc.x1) / ha
  else if c.val = 2 then log ((gtb.x2 - gtb.x1) / wa)
  else log ((gtb.y2 - gtb.y1) / ha)

/-- Maximum of a list of rationals, the meaning of np.max over the last
axis.  np.max raises on an empty array, so the [] case is junk; every
statement that uses it carries a non-emptiness hypothesis. -/
def listMax : List ℚ → ℚ
  | [] => 0
  | x :: xs => xs.foldl max x

/-- All anchor slots (i, j, a) of a (rows, cols, k) grid, the flattened
index set produced by ious.reshape((-1, gtb_num)). -/
def anchorTriples (rows cols k : ℕ) : List (Fin rows × Fin cols × Fin k) :=
  (List.finRange rows).flatMap fun i =>
    (List.finRange cols).flatMap fun j =>
      (List.finRange k).map fun a => (i, j, a)

/-- def anchors_vs_gt(ancs, gtbs, lo=.3, hi=.7):
      ious = np.stack([iou(ancs, gtb) for gtb in gtbs], axis=-1)
      best = ious.reshape((-1, gtbs.shape[0])).max(axis=0)
      box_pos = np.logical_or(ious.max(axis=-1) >= hi,
                  np.logical_and(ious == best, best > 0).any(axis=-1))
      box_neg = ious.max(axis=-1) <= lo
      best_gt = np.take(gtbs, ious.argmax(axis=-1), axis=0)
      return box_pos, box_neg, coords2param(ancs, best_gt)
best is indexed by the ground-truth slot; since iou only depends on the
box value, it is embedded as a function of the box.  np.argmax returns
the first index attaining the maximum, which is List.indexOf of the
maximum value; np.take at that index is List.getD. -/
def anchors_vs_gt {rows cols k : ℕ} (log : ℚ → ℚ)
    (ancs : Fin rows → Fin cols → Fin k → Box) (gtbs : List Box) (lo hi : ℚ) :
    (Fin rows → Fin cols → Fin k → Bool) ×
      (Fin rows → Fin cols → Fin k → Bool) ×
      (Fin rows → Fin cols → Fin k → Fin 4 → ℚ) :=
  let ious : Fin rows → Fin cols → Fin k → List ℚ :=
    fun i j a => gtbs.map (fun g => iou (ancs i j a) g)
  let best : Box → ℚ := fun g =>
    listMax ((anchorTriples rows cols k).map (fun t => iou (ancs t.1 t.2.1 t.2.2) g))
  let box_pos := fun i j a =>
    decide (hi ≤ listMax (ious i j a)) ||
      gtbs.any (fun g => decide (iou (ancs i j a) g = best g) && decide (0 < best g))
  let box_neg := fun i j a => decide (listMax (ious i j a) ≤ lo)
  let best_gt := fun i j a =>
    gtbs.getD ((ious i j a).indexOf (listMax (ious i j a))) ⟨0, 0, 0, 0⟩
  (box_pos, box_neg, fun i j a => coords2param log (ancs i j a) (best_gt i j a))

/-- Number of True entries of a boolean mask: pos[pos].shape[0]. -/
def maskCount {ι : Type} [Fintype ι] [DecidableEq ι] (m : ι → Bool) : ℕ :=
  (Finset.univ.filter fun i => m i = true).card

/-- Fancy-indexed assignment mask[indices] = False for a chosen set of
positions (the np.vsplit/np.vstack/np.where dance selects exactly a set
of currently-True coordinates). -/
def clearSel {ι : Type} [DecidableEq ι] (m : ι → Bool) (sel : Finset ι) : ι → Bool :=
  fun i => if i ∈ sel then false else m i

/-- def filter_boxes(pos, neg, num=256):
      p_num = pos[pos].shape[0]; n_num = neg[neg].shape[0]
      if p_num > num/2:
          pos[...random p_num - num//2 True positions...] = False
          p_num = num//2
      if n_num + p_num > num:
          neg[...random n_num - num + p_num True positions...] = False
      return pos, neg
The outcome of np.random.choice is modelled by the explicit selection
sets selP, selN; the claims hypothesise exactly the properties the
random draw guarantees (subset of the True positions, exact size). -/
def filter_boxes {ι : Type} [Fintype ι] [DecidableEq ι]
    (pos neg : ι → Bool) (num : ℕ) (selP selN : Finset ι) :
    (ι → Bool) × (ι → Bool) :=
  let p_num := maskCount pos
  let n_num := maskCount neg
  let pos2 := if (num : ℚ) / 2 < (p_num : ℚ) then clearSel pos selP else pos
  let p_num2 := if (num : ℚ) / 2 < (p_num : ℚ) then num / 2 else p_num
  let neg2 := if num < n_num + p_num2 then clearSel neg selN else neg
  (pos2, neg2)

/-- A (rows, cols, ch) float tensor. -/
abbrev Grid (rows cols ch : ℕ) := Fin rows → Fin cols → Fin ch → ℚ

/-- The inner closure of rpn_regr_loss:
      dy = ytrue - ypred
      sw = K.cast(K.less(K.abs(dy), 1), dtype=K.floatx())
      r1 = sw*dy*dy*.5
      r2 = (1-sw)*(K.abs(dy)-.5)
      return K.sum((r1+r2) * ptrue) -/
def rpn_regr_loss_core {rows cols n : ℕ} (ytrue ypred ptrue : Grid rows cols n) : ℚ :=
  ∑ i, ∑ j, ∑ c,
    (let dy := ytrue i j c - ypred i j c
     let sw : ℚ := if |dy| < 1 then 1 else 0
     (sw * dy * dy * (1/2) + (1 - sw) * (|dy| - 1/2)) * ptrue i j c)

/-- def rpn_regr_loss(num_ancs): return lambda ytrue, ypred:
      loss(ytrue[...,4*num_ancs:], ypred, ytrue[...,:4*num_ancs]) -/
def rpn_regr_loss (num_ancs : ℕ) {rows cols : ℕ}
    (ytrue : Grid rows cols (8 * num_ancs)) (ypred : Grid rows cols (4 * num_ancs)) : ℚ :=
  rpn_regr_loss_core
    (fun i j c => ytrue i j ⟨4 * num_ancs + c.val, by omega⟩)
    ypred
    (fun i j c => ytrue i j ⟨c.val, by omega⟩)

/-- The inner closure of rpn_cls_loss:
      return K.sum(- postrue * K.log(1e-4 + ppred)
                   - negtrue * K.log(1e-4 + 1-ppred))
1e-4 is the rational 1/10000; K.log is the parameter log. -/
def rpn_cls_loss_core {rows cols n : ℕ} (log : ℚ → ℚ)
    (postrue negtrue ppred : Grid rows cols n) : ℚ :=
  ∑ i, ∑ j, ∑ c,
    (- postrue i j c * log (1/10000 + ppred i j c)
      - negtrue i j c * log (1/10000 + (1 - ppred i j c)))

/-- def rpn_cls_loss(num_ancs): return lambda ptrue, ppred:
      loss(ptrue[...,:num_ancs], ptrue[...,num_ancs:], ppred) -/
def rpn_cls_loss (log : ℚ → ℚ) (num_ancs : ℕ) {rows cols : ℕ}
    (ptrue : Grid rows cols (2 * num_ancs)) (ppred : Grid rows cols num_ancs) : ℚ :=
  rpn_cls_loss_core log
    (fun i j c => ptrue i j ⟨c.val, by omega⟩)
    (fun i j c => ptrue i j ⟨num_ancs + c.val, by omega⟩)
    ppred

/-- astype(np.int32) applied to a boolean entry. -/
def b2q (b : Bool) : ℚ := if b then 1 else 0

/-- y_cls = np.concatenate((pos, neg), axis=-1).astype(np.int32):
channels [0, k) hold the positive mask, channels [k, 2k) the negative
mask. -/
def datagen_y_cls {rows cols k : ℕ}
    (pos neg : Fin rows → Fin cols → Fin k → Bool) : Grid rows cols (2 * k) :=
  fun i j c =>
    if h : c.val < k then b2q (pos i j ⟨c.val, h⟩)
    else b2q (neg i j ⟨c.val - k, by omega⟩)

/-- y_regr = np.concatenate((pos.repeat(4, axis=-1), gtbs), axis=-1):
channels [0, 4k) hold the positive mask with every entry repeated 4
times (channel c reads anchor c / 4); channels [4k, 8k) hold the
regression parameters reshaped from (rows, cols, k, 4) to
(rows, cols, 4k) (channel c reads slot (c/4, c%4)). -/
def datagen_y_regr {rows cols k : ℕ}
    (pos : Fin rows → Fin cols → Fin k → Bool)
    (gtbs : Fin rows → Fin cols → Fin k → Fin 4 → ℚ) : Grid rows cols (8 * k) :=
  fun i j c =>
    if h : c.val < 4 * k then b2q (pos i j ⟨c.val / 4, by omega⟩)
    else gtbs i j ⟨(c.val - 4 * k) / 4, by omega⟩ ⟨(c.val - 4 * k) % 4, by omega⟩

/-- The division of a flat channel index c < 4k into (anchor, component)
with c = 4*anchor + component, the layout of repeat(4, axis=-1) and of
the (k,4) → 4k reshape. -/
def anchorCompEquiv (k : ℕ) : Fin k × Fin 4 ≃ Fin (4 * k) where
  toFun p := ⟨4 * p.1.val + p.2.val, by omega⟩
  invFun c := (⟨c.val / 4, by omega⟩, ⟨c.val % 4, by omega⟩)
  left_inv := by
    rintro ⟨⟨a, ha⟩, ⟨r, hr⟩⟩
    simp only [Prod.mk.injEq, Fin.mk.injEq]
    omega
  right_inv := by
    rintro ⟨c, hc⟩
    simp only [Fin.mk.injEq]
    omega

/-- One row of gt.txt as read by np.loadtxt(..., delimiter=',',
converters={0: strip extension}, dtype=np.int32): column 0 is the image
id, columns 1-4 the box corners x1, y1, x2, y2, column 5 the class. -/
structure GtRow where
  f0 : ℤ
  f1 : ℤ
  f2 : ℤ
  f3 : ℤ
  f4 : ℤ
  f5 : ℤ
deriving DecidableEq, Repr

/-- temp[:,[2,1,4,3]]: the column selection y1, x1, y2, x2 from a csv
row; int32 entries are promoted to rationals by the float arithmetic. -/
def rowBox (r : GtRow) : Box := ⟨(r.f2 : ℚ), (r.f1 : ℚ), (r.f4 : ℚ), (r.f3 : ℚ)⟩

/-- Uncurry a (rows, cols, k) mask to the flat anchor-slot index, the
view np.where takes of the array in filter_boxes. -/
def uncurry3 {rows cols k : ℕ} {α : Type} (f : Fin rows → Fin cols → Fin k → α) :
    Fin rows × Fin cols × Fin k → α :=
  fun t => f t.1 t.2.1 t.2.2

/-- Inverse of uncurry3. -/
def curry3 {rows cols k : ℕ} {α : Type} (f : Fin rows × Fin cols × Fin k → α) :
    Fin rows → Fin cols → Fin k → α :=
  fun i j a => f (i, j, a)

/-- The body of the loop in datagen for one image index i:
      temp = csv[csv[:,0] == i]; temp = temp[:,[2,1,4,3]]
      pos, neg, gtbs = anchors_vs_gt(ancs, temp)
      gtbs = gtbs.reshape((gtbs.shape[0], gtbs.shape[1], -1))
      pos, neg = filter_boxes(pos, neg)
      x_img  = np.expand_dims(imread(...{i}...), 0)
      y_cls  = np.expand_dims(np.concatenate((pos, neg), -1).astype(np.int32), 0)
      y_regr = np.expand_dims(np.concatenate((pos.repeat(4, -1), gtbs), -1), 0)
      yield (x_img, [y_cls, y_regr])
Image loading is the abstract function img; the random draws inside
filter_boxes for image i are the selection sets selP i, selN i. -/
def datagenStep {α : Type} (log : ℚ → ℚ) {rows cols k : ℕ}
    (ancs : Fin rows → Fin cols → Fin k → Box)
    (csv : List GtRow) (img : ℕ → α)
    (selP selN : ℕ → Finset (Fin rows × Fin cols × Fin k)) (i : ℕ) :
    α × Grid rows cols (2 * k) × Grid rows cols (8 * k) :=
  let temp := (csv.filter fun r => decide (r.f0 = (i : ℤ))).map rowBox
  let avg := anchors_vs_gt log ancs temp (3/10) (7/10)
  let fb := filter_boxes (uncurry3 avg.1) (uncurry3 avg.2.1) 256 (selP i) (selN i)
  (img i, datagen_y_cls (curry3 fb.1) (curry3 fb.2),
    datagen_y_regr (curry3 fb.1) avg.2.2)

/-- idx = np.arange(start, stop). -/
def datagenIdx (start stop : ℕ) : List ℕ := List.range' start (stop - start)

/-- def datagen(start, stop, ancs=None, shuffle=True): the generator,
as the list of its yields.  The shuffle argument appears in the
signature of the source and is never read by its body; it is kept here
unused for the same reason.  The ancs=None default of the source is
get_anchors(200, 340, [16,24,32], 4); the claims quantify over an
explicitly passed anchor array, so ancs is a plain argument. -/
def datagen {α : Type} (log : ℚ → ℚ) {rows cols k : ℕ}
    (start stop : ℕ) (ancs : Fin rows → Fin cols → Fin k → Box) (shuffle : Bool)
    (csv : List GtRow) (img : ℕ → α)
    (selP selN : ℕ → Finset (Fin rows × Fin cols × Fin k)) :
    List (α × Grid rows cols (2 * k) × Grid rows cols (8 * k)) :=
  (datagenIdx start stop).map (datagenStep log ancs csv img selP selN)

/-- Spec-side robust (smooth-L1 / Huber) loss of the Faster R-CNN paper:
0.5 d² for |d| < 1 and |d| - 0.5 otherwise. -/
def smoothL1 (d : ℚ) : ℚ := if |d| < 1 then d ^ 2 / 2 else |d| - 1/2

/- ------------------------------------------------------------------ -/
/- Helper lemmas                                                      -/
/- ------------------------------------------------------------------ -/

theorem listMax_foldl_mem (xs : List ℚ) : ∀ x : ℚ, xs.foldl max x ∈ x :: xs := by
  induction xs with
  | nil => intro x; simp
  | cons y ys ih =>
    intro x
    have h := ih (max x y)
    simp only [List.foldl_cons]
    rcases List.mem_cons.mp h with h1 | h1
    · rw [h1]
      rcases max_choice x y with hm | hm <;> rw [hm] <;> simp
    · exact List.mem_cons_of_mem _ (List.mem_cons_of_mem _ h1)

theorem le_listMax_foldl (xs : List ℚ) :
    ∀ x : ℚ, x ≤ xs.foldl max x ∧ ∀ a ∈ xs, a ≤ xs.foldl max x := by
  induction xs with
  | nil => intro x; exact ⟨le_refl x, by simp⟩
  | cons y ys ih =>
    intro x
    obtain ⟨h1, h2⟩ := ih (max x y)
    simp only [List.foldl_cons]
    refine ⟨le_trans (le_max_left x y) h1, ?_⟩
    intro a ha
    rcases List.mem_cons.mp ha with rfl | ha
    · exact le_trans (le_max_right x a) h1
    · exact h2 a ha

theorem listMax_mem {l : List ℚ} (h : l ≠ []) : listMax l ∈ l := by
  cases l with
  | nil => exact absurd rfl h
  | cons x xs => exact listMax_foldl_mem xs x

theorem le_listMax {l : List ℚ} {a : ℚ} (h : a ∈ l) : a ≤ listMax l := by
  cases l with
  | nil => simp at h
  | cons x xs =>
    rcases List.mem_cons.mp h with rfl | h
    · exact (le_listMax_foldl xs a).1
    · exact (le_listMax_foldl xs x).2 a h

theorem listMax_le {l : List ℚ} {c : ℚ} (h : l ≠ []) (hub : ∀ a ∈ l, a ≤ c) :
    listMax l ≤ c :=
  hub _ (listMax_mem h)

theorem le_listMax_iff {l : List ℚ} {c : ℚ} (h : l ≠ []) :
    c ≤ listMax l ↔ ∃ a ∈ l, c ≤ a := by
  constructor
  · intro hc; exact ⟨listMax l, listMax_mem h, hc⟩
  · rintro ⟨a, ha, hc⟩; exact le_trans hc (le_listMax ha)

theorem listMax_le_iff {l : List ℚ} {c : ℚ} (h : l ≠ []) :
    listMax l ≤ c ↔ ∀ a ∈ l, a ≤ c := by
  constructor
  · intro hc a ha; exact le_trans (le_listMax ha) hc
  · exact listMax_le h

theorem mem_anchorTriples {rows cols k : ℕ} (t : Fin rows × Fin cols × Fin k) :
    t ∈ anchorTriples rows cols k := by
  obtain ⟨i, j, a⟩ := t
  simp only [anchorTriples, List.mem_flatMap, List.mem_map, List.mem_finRange]
  exact ⟨i, trivial, j, trivial, a, trivial, rfl⟩

theorem clearSel_filter {ι : Type} [Fintype ι] [DecidableEq ι]
    (m : ι → Bool) (sel : Finset ι) :
    (Finset.univ.filter fun i => clearSel m sel i = true) =
      (Finset.univ.filter fun i => m i = true) \ sel := by
  ext i
  by_cases h : i ∈ sel <;> simp [clearSel, Finset.mem_sdiff, h]

theorem maskCount_clearSel {ι : Type} [Fintype ι] [DecidableEq ι]
    (m : ι → Bool) (sel : Finset ι)
    (hsub : sel ⊆ Finset.univ.filter fun i => m i = true) :
    maskCount (clearSel m sel) = maskCount m - sel.card := by
  unfold maskCount
  rw [clearSel_filter, Finset.card_sdiff hsub]

theorem clearSel_le {ι : Type} [DecidableEq ι] (m : ι → Bool) (sel : Finset ι)
    (i : ι) (h : clearSel m sel i = true) : m i = true := by
  unfold clearSel at h
  by_cases hm : i ∈ sel
  · simp [hm] at h
  · simpa [hm] using h

theorem qhalf_lt_iff (num p : ℕ) : ((num : ℚ) / 2 < (p : ℚ)) ↔ num < 2 * p := by
  rw [div_lt_iff₀ (by norm_num : (0:ℚ) < 2)]
  constructor
  · intro h
    have h2 : ((num : ℕ) : ℚ) < ((2 * p : ℕ) : ℚ) := by push_cast; linarith
    exact_mod_cast h2
  · intro h
    have h2 : ((num : ℕ) : ℚ) < ((2 * p : ℕ) : ℚ) := by exact_mod_cast h
    push_cast at h2; linarith

theorem intersect_eq_overlapArea (b1 b2 : Box) : intersect b1 b2 = overlapArea b1 b2 := by
  simp only [intersect, overlapArea, Box.cmin, Box.cmax]
  ring

theorem intersect_nonneg (b1 b2 : Box) : 0 ≤ intersect b1 b2 := by
  rw [intersect_eq_overlapArea]
  exact mul_nonneg (le_max_right _ _) (le_max_right _ _)

theorem overlap_le_area_left (b1 b2 : Box) (h1 : wellFormed b1) :
    intersect b1 b2 ≤ boxArea b1 := by
  rw [intersect_eq_overlapArea]
  obtain ⟨hy, hx⟩ := h1
  unfold overlapArea boxArea
  apply mul_le_mul
  · apply max_le
    · have h3 := min_le_left b1.y2 b2.y2
      have h4 := le_max_left b1.y1 b2.y1
      linarith
    · linarith
  · apply max_le
    · have h3 := min_le_left b1.x2 b2.x2
      have h4 := le_max_left b1.x1 b2.x1
      linarith
    · linarith
  · exact le_max_right _ _
  · linarith

theorem overlap_le_area_right (b1 b2 : Box) (h2 : wellFormed b2) :
    intersect b1 b2 ≤ boxArea b2 := by
  rw [intersect_eq_overlapArea]
  obtain ⟨hy, hx⟩ := h2
  unfold overlapArea boxArea
  apply mul_le_mul
  · apply max_le
    · have h3 := min_le_right b1.y2 b2.y2
      have h4 := le_max_right b1.y1 b2.y1
      linarith
    · linarith
  · apply max_le
    · have h3 := min_le_right b1.x2 b2.x2
      have h4 := le_max_right b1.x1 b2.x1
      linarith
    · linarith
  · exact le_max_right _ _
  · linarith

theorem union_eq (b1 b2 : Box) (iarea : ℚ) :
    union b1 b2 iarea = boxArea b1 + boxArea b2 - iarea := by
  simp only [union, boxArea]

theorem union_pos_of_area (b1 b2 : Box) (h1 : wellFormed b1) (h2 : wellFormed b2)
    (hpos : 0 < boxArea b1 ∨ 0 < boxArea b2) :
    0 < union b1 b2 (intersect b1 b2) := by
  have hle1 := overlap_le_area_left b1 b2 h1
  have hle2 := overlap_le_area_right b1 b2 h2
  have h0 := intersect_nonneg b1 b2
  rw [union_eq]
  rcases hpos with h | h <;> linarith

theorem iou_mem_unit (b1 b2 : Box) (h1 : wellFormed b1) (h2 : wellFormed b2)
    (hpos : 0 < boxArea b1 ∨ 0 < boxArea b2) :
    0 ≤ iou b1 b2 ∧ iou b1 b2 ≤ 1 := by
  have hu := union_pos_of_area b1 b2 h1 h2 hpos
  have h0 := intersect_nonneg b1 b2
  have hle1 := overlap_le_area_left b1 b2 h1
  have hle2 := overlap_le_area_right b1 b2 h2
  have hi_le_u : intersect b1 b2 ≤ union b1 b2 (intersect b1 b2) := by
    rw [union_eq]; linarith
  simp only [iou]
  exact ⟨div_nonneg h0 hu.le, (div_le_one hu).mpr hi_le_u⟩

theorem huber_term_eq (dy p : ℚ) :
    ((if |dy| < 1 then (1:ℚ) else 0) * dy * dy * (1/2)
        + (1 - (if |dy| < 1 then (1:ℚ) else 0)) * (|dy| - 1/2)) * p
      = p * smoothL1 dy := by
  unfold smoothL1
  by_cases h : |dy| < 1 <;> simp only [h, if_true, if_false] <;> ring

theorem sum_fin_four_mul (k : ℕ) (f : Fin (4 * k) → ℚ) :
    (∑ c, f c) = ∑ a : Fin k, ∑ r : Fin 4, f ⟨4 * a.val + r.val, by omega⟩ := by
  rw [← Equiv.sum_comp (anchorCompEquiv k) f, Fintype.sum_prod_type]
  rfl

theorem sorted_range' (s n : ℕ) : List.Sorted (· < ·) (List.range' s n) := by
  induction n generalizing s with
  | zero => simp [List.range']
  | succ n ih =>
    rw [List.range'_succ]
    rw [List.sorted_cons]
    refine ⟨?_, ih (s + 1)⟩
    intro b hb
    rw [List.mem_range'] at hb
    omega

/- ------------------------------------------------------------------ -/
/- Claim theorems                                                     -/
/- ------------------------------------------------------------------ -/

/-- C9: get_anchors places at slot (i, j, a) the square box
[cy - s/2, cx - s/2, cy + s/2, cx + s/2] of side s = sizes[a] centered
at cy = i*stride + 0.5, cx = j*stride + 0.5, in the order y1, x1, y2,
x2; width and height both equal s, so every anchor is 1:1. -/
theorem get_anchors_spec (rows cols : ℕ) (sizes : List ℚ) (stride : ℚ)
    (i : Fin rows) (j : Fin cols) (a : Fin sizes.length) :
    get_anchors rows cols sizes stride i j a 0
        = (i.val : ℚ) * stride + 1/2 - sizes.get a / 2
      ∧ get_anchors rows cols sizes stride i j a 1
        = (j.val : ℚ) * stride + 1/2 - sizes.get a / 2
      ∧ get_anchors rows cols sizes stride i j a 2
        = (i.val : ℚ) * stride + 1/2 + sizes.get a / 2
      ∧ get_anchors rows cols sizes stride i j a 3
        = (j.val : ℚ) * stride + 1/2 + sizes.get a / 2
      ∧ get_anchors rows cols sizes stride i j a 3
          - get_anchors rows cols sizes stride i j a 1
        = get_anchors rows cols sizes stride i j a 2
          - get_anchors rows cols sizes stride i j a 0
      ∧ get_anchors rows cols sizes stride i j a 2
          - get_anchors rows cols sizes stride i j a 0
        = sizes.get a := by
  have h0 : ((0 : Fin 4)).val = 0 := rfl
  have h1 : ((1 : Fin 4)).val = 1 := rfl
  have h2 : ((2 : Fin 4)).val = 2 := rfl
  have h3 : ((3 : Fin 4)).val = 3 := rfl
  simp only [get_anchors, h0, h1, h2, h3]
  norm_num
  refine ⟨?_, ?_, ?_, ?_⟩ <;> ring

/-- C1: the notebook's coords2param contradicts the claimed paper
parametrization at its second output: with anchor [0,0,1,1] and ground
truth [1,0,2,1] (both unit squares, the latter shifted down by 1) the
code yields ty = (gx1 - x1)/ha = 0, while the claimed
ty = (gy1 - y1)/ha equals 1. -/
theorem coords2param_ty_deviates :
    coords2param (fun x => x) ⟨0, 0, 1, 1⟩ ⟨1, 0, 2, 1⟩ 1 = 0
      ∧ (((⟨1, 0, 2, 1⟩ : Box).y1 - (⟨0, 0, 1, 1⟩ : Box).y1)
          / ((⟨0, 0, 1, 1⟩ : Box).y2 - (⟨0, 0, 1, 1⟩ : Box).y1)) = 1 := by
  constructor
  · norm_num [coords2param]
  · norm_num

/-- C3: intersect equals the clamped per-axis overlap product, union
equals area1 + area2 minus the intersection area, and for well-formed
boxes one of which has positive area, iou is the quotient
intersect/union and lies in [0, 1]. -/
theorem intersect_union_iou_spec (b1 b2 : Box)
    (h1 : wellFormed b1) (h2 : wellFormed b2) :
    intersect b1 b2 = overlapArea b1 b2
      ∧ union b1 b2 (intersect b1 b2)
          = boxArea b1 + boxArea b2 - overlapArea b1 b2
      ∧ (0 < boxArea b1 ∨ 0 < boxArea b2 →
          iou b1 b2 = intersect b1 b2 / union b1 b2 (intersect b1 b2)
            ∧ 0 ≤ iou b1 b2 ∧ iou b1 b2 ≤ 1) := by
  refine ⟨intersect_eq_overlapArea b1 b2, ?_, ?_⟩
  · rw [union_eq, intersect_eq_overlapArea]
  · intro hpos
    obtain ⟨ha, hb⟩ := iou_mem_unit b1 b2 h1 h2 hpos
    exact ⟨rfl, ha, hb⟩

/-- C3 witness: the specification instantiated at the unit square and
the square of side 2. -/
theorem intersect_union_iou_spec_witness :
    wellFormed ⟨0, 0, 1, 1⟩ ∧ wellFormed ⟨0, 0, 2, 2⟩
      ∧ (intersect ⟨0, 0, 1, 1⟩ ⟨0, 0, 2, 2⟩ = overlapArea ⟨0, 0, 1, 1⟩ ⟨0, 0, 2, 2⟩
        ∧ union ⟨0, 0, 1, 1⟩ ⟨0, 0, 2, 2⟩ (intersect ⟨0, 0, 1, 1⟩ ⟨0, 0, 2, 2⟩)
            = boxArea ⟨0, 0, 1, 1⟩ + boxArea ⟨0, 0, 2, 2⟩
              - overlapArea ⟨0, 0, 1, 1⟩ ⟨0, 0, 2, 2⟩
        ∧ (0 < boxArea ⟨0, 0, 1, 1⟩ ∨ 0 < boxArea ⟨0, 0, 2, 2⟩ →
            iou ⟨0, 0, 1, 1⟩ ⟨0, 0, 2, 2⟩
                = intersect ⟨0, 0, 1, 1⟩ ⟨0, 0, 2, 2⟩
                  / union ⟨0, 0, 1, 1⟩ ⟨0, 0, 2, 2⟩ (intersect ⟨0, 0, 1, 1⟩ ⟨0, 0, 2, 2⟩)
              ∧ 0 ≤ iou ⟨0, 0, 1, 1⟩ ⟨0, 0, 2, 2⟩ ∧ iou ⟨0, 0, 1, 1⟩ ⟨0, 0, 2, 2⟩ ≤ 1)) :=
  ⟨by decide, by decide,
    intersect_union_iou_spec ⟨0, 0, 1, 1⟩ ⟨0, 0, 2, 2⟩ (by decide) (by decide)⟩

/-- C8 counterexample: b1 = [0,0,1,1] has strictly positive width and
height, yet against the malformed box b2 = [5,0,6,-1] (x2 < x1) the
union evaluates to exactly 0, refuting strict positivity as claimed for
arbitrary boxes in [y1,x1,y2,x2] form. -/
theorem union_zero_counterexample :
    (0 < (⟨0, 0, 1, 1⟩ : Box).y2 - (⟨0, 0, 1, 1⟩ : Box).y1
        ∧ 0 < (⟨0, 0, 1, 1⟩ : Box).x2 - (⟨0, 0, 1, 1⟩ : Box).x1)
      ∧ ¬ 0 < union ⟨0, 0, 1, 1⟩ ⟨5, 0, 6, -1⟩
            (intersect ⟨0, 0, 1, 1⟩ ⟨5, 0, 6, -1⟩) := by
  refine ⟨⟨by norm_num, by norm_num⟩, ?_⟩
  norm_num [union, intersect, Box.cmin, Box.cmax]

/-- C8 (amended): for well-formed boxes (y1 ≤ y2 and x1 ≤ x2 in both),
at least one of which has strictly positive width and height, the union
fed to iou's division is strictly positive, so the division-by-zero
branch is unreachable. -/
theorem union_pos_spec (b1 b2 : Box) (h1 : wellFormed b1) (h2 : wellFormed b2)
    (hpos : (0 < b1.y2 - b1.y1 ∧ 0 < b1.x2 - b1.x1)
        ∨ (0 < b2.y2 - b2.y1 ∧ 0 < b2.x2 - b2.x1)) :
    0 < union b1 b2 (intersect b1 b2) := by
  apply union_pos_of_area b1 b2 h1 h2
  unfold boxArea
  rcases hpos with ⟨hy, hx⟩ | ⟨hy, hx⟩
  · exact Or.inl (mul_pos hy hx)
  · exact Or.inr (mul_pos hy hx)

/-- C8 witness: the amended statement instantiated at two unit squares. -/
theorem union_pos_spec_witness :
    wellFormed ⟨0, 0, 1, 1⟩ ∧ wellFormed ⟨0, 0, 1, 1⟩
      ∧ ((0 < (⟨0, 0, 1, 1⟩ : Box).y2 - (⟨0, 0, 1, 1⟩ : Box).y1
            ∧ 0 < (⟨0, 0, 1, 1⟩ : Box).x2 - (⟨0, 0, 1, 1⟩ : Box).x1)
          ∨ (0 < (⟨0, 0, 1, 1⟩ : Box).y2 - (⟨0, 0, 1, 1⟩ : Box).y1
            ∧ 0 < (⟨0, 0, 1, 1⟩ : Box).x2 - (⟨0, 0, 1, 1⟩ : Box).x1))
      ∧ 0 < union ⟨0, 0, 1, 1⟩ ⟨0, 0, 1, 1⟩ (intersect ⟨0, 0, 1, 1⟩ ⟨0, 0, 1, 1⟩) :=
  ⟨by decide, by decide, by norm_num,
    union_pos_spec ⟨0, 0, 1, 1⟩ ⟨0, 0, 1, 1⟩ (by decide) (by decide) (by norm_num)⟩

/-- C5: rpn_regr_loss num_ancs sums, over every position and channel,
ptrue times smoothL1(t - t_hat), where ptrue is the first 4*num_ancs
channels of ytrue, t the last 4*num_ancs channels, and t_hat is ypred. -/
theorem rpn_regr_loss_spec (num_ancs rows cols : ℕ)
    (ytrue : Grid rows cols (8 * num_ancs)) (ypred : Grid rows cols (4 * num_ancs)) :
    rpn_regr_loss num_ancs ytrue ypred
      = ∑ i, ∑ j, ∑ c : Fin (4 * num_ancs),
          ytrue i j ⟨c.val, by omega⟩
            * smoothL1 (ytrue i j ⟨4 * num_ancs + c.val, by omega⟩ - ypred i j c) := by
  unfold rpn_regr_loss rpn_regr_loss_core
  refine Finset.sum_congr rfl fun i _ => Finset.sum_congr rfl fun j _ =>
    Finset.sum_congr rfl fun c _ => ?_
  exact huber_term_eq (ytrue i j ⟨4 * num_ancs + c.val, by omega⟩ - ypred i j c)
    (ytrue i j ⟨c.val, by omega⟩)

/-- C6: rpn_cls_loss num_ancs sums, over every position and channel,
-pos*log(ppred + 1e-4) - neg*log(1 - ppred + 1e-4), with pos the first
num_ancs channels of ptrue and neg the last num_ancs channels; and when
ppred is entrywise within [0, 1] both log arguments are strictly
positive, so no logarithm of a non-positive number is taken. -/
theorem rpn_cls_loss_spec (log : ℚ → ℚ) (num_ancs rows cols : ℕ)
    (ptrue : Grid rows cols (2 * num_ancs)) (ppred : Grid rows cols num_ancs) :
    rpn_cls_loss log num_ancs ptrue ppred
        = ∑ i, ∑ j, ∑ c : Fin num_ancs,
            (- ptrue i j ⟨c.val, by omega⟩ * log (ppred i j c + 1/10000)
              - ptrue i j ⟨num_ancs + c.val, by omega⟩
                  * log (1 - ppred i j c + 1/10000))
      ∧ ((∀ i j c, 0 ≤ ppred i j c ∧ ppred i j c ≤ 1) →
          ∀ i j c, 0 < ppred i j c + 1/10000 ∧ 0 < 1 - ppred i j c + 1/10000) := by
  constructor
  · unfold rpn_cls_loss rpn_cls_loss_core
    refine Finset.sum_congr rfl fun i _ => Finset.sum_congr rfl fun j _ =>
      Finset.sum_congr rfl fun c _ => ?_
    have ha : (1:ℚ)/10000 + ppred i j c = ppred i j c + 1/10000 := by ring
    have hb : (1:ℚ)/10000 + (1 - ppred i j c) = 1 - ppred i j c + 1/10000 := by ring
    rw [ha, hb]
  · intro hp i j c
    obtain ⟨h0, h1⟩ := hp i j c
    constructor <;> linarith

/-- C6 witness: the statement instantiated at a 1 x 1 grid with one
anchor, identity log, constant masks and prediction one half. -/
theorem rpn_cls_loss_spec_witness :
    @rpn_cls_loss (fun x => x) 1 1 1 (fun _ _ _ => (1:ℚ)) (fun _ _ _ => (1:ℚ)/2)
        = ∑ i : Fin 1, ∑ j : Fin 1, ∑ c : Fin 1,
            (- (fun (_ : Fin 1) (_ : Fin 1) (_ : Fin (2*1)) => (1:ℚ)) i j ⟨c.val, by omega⟩
                * (fun x => x) ((fun (_ : Fin 1) (_ : Fin 1) (_ : Fin 1) => (1:ℚ)/2) i j c + 1/10000)
              - (fun (_ : Fin 1) (_ : Fin 1) (_ : Fin (2*1)) => (1:ℚ)) i j ⟨1 + c.val, by omega⟩
                  * (fun x => x) (1 - (fun (_ : Fin 1) (_ : Fin 1) (_ : Fin 1) => (1:ℚ)/2) i j c + 1/10000))
      ∧ ((∀ (i : Fin 1) (j : Fin 1) (c : Fin 1),
            0 ≤ (fun (_ : Fin 1) (_ : Fin 1) (_ : Fin 1) => (1:ℚ)/2) i j c
              ∧ (fun (_ : Fin 1) (_ : Fin 1) (_ : Fin 1) => (1:ℚ)/2) i j c ≤ 1) →
          ∀ (i : Fin 1) (j : Fin 1) (c : Fin 1),
            0 < (fun (_ : Fin 1) (_ : Fin 1) (_ : Fin 1) => (1:ℚ)/2) i j c + 1/10000
              ∧ 0 < 1 - (fun (_ : Fin 1) (_ : Fin 1) (_ : Fin 1) => (1:ℚ)/2) i j c + 1/10000) :=
  rpn_cls_loss_spec (fun x => x) 1 1 1 (fun _ _ _ => 1) (fun _ _ _ => 1/2)

/-- C2: for a non-empty ground-truth list, anchors_vs_gt marks an
anchor positive iff its maximum IoU over the ground-truth boxes reaches
hi or, for some ground-truth box g with which it has positive IoU, no
anchor in the grid has larger IoU with g; it marks an anchor negative
iff every IoU is at most lo; and the returned parameters are
coords2param of the anchor against a ground-truth box attaining its
maximal IoU. -/
theorem anchors_vs_gt_spec {rows cols k : ℕ} (log : ℚ → ℚ)
    (ancs : Fin rows → Fin cols → Fin k → Box) (gtbs : List Box) (lo hi : ℚ)
    (hne : gtbs ≠ []) (i : Fin rows) (j : Fin cols) (a : Fin k) :
    ((anchors_vs_gt log ancs gtbs lo hi).1 i j a = true ↔
        ((∃ g ∈ gtbs, hi ≤ iou (ancs i j a) g)
          ∨ ∃ g ∈ gtbs, 0 < iou (ancs i j a) g
              ∧ ∀ (i' : Fin rows) (j' : Fin cols) (a' : Fin k),
                  iou (ancs i' j' a') g ≤ iou (ancs i j a) g))
      ∧ ((anchors_vs_gt log ancs gtbs lo hi).2.1 i j a = true ↔
          ∀ g ∈ gtbs, iou (ancs i j a) g ≤ lo)
      ∧ ∃ g ∈ gtbs, (∀ g' ∈ gtbs, iou (ancs i j a) g' ≤ iou (ancs i j a) g)
          ∧ (anchors_vs_gt log ancs gtbs lo hi).2.2 i j a
              = coords2param log (ancs i j a) g := by
  have hmapne : gtbs.map (fun g => iou (ancs i j a) g) ≠ [] := by
    simpa using hne
  refine ⟨?_, ?_, ?_⟩
  · simp only [anchors_vs_gt, Bool.or_eq_true, decide_eq_true_eq,
      List.any_eq_true, Bool.and_eq_true]
    constructor
    · rintro (hmax | ⟨g, hg, hbest, hpos⟩)
      · left
        obtain ⟨y, hy, hyc⟩ := (le_listMax_iff hmapne).mp hmax
        obtain ⟨g, hg, rfl⟩ := List.mem_map.mp hy
        exact ⟨g, hg, hyc⟩
      · right
        refine ⟨g, hg, ?_, ?_⟩
        · rw [hbest]; exact hpos
        · intro i' j' a'
          have hmem : iou (ancs i' j' a') g ∈
              (anchorTriples rows cols k).map (fun t => iou (ancs t.1 t.2.1 t.2.2) g) :=
            List.mem_map.mpr ⟨(i', j', a'), mem_anchorTriples _, rfl⟩
          rw [hbest]
          exact le_listMax hmem
    · rintro (⟨g, hg, hge⟩ | ⟨g, hg, hioupos, hub⟩)
      · left
        exact (le_listMax_iff hmapne).mpr
          ⟨iou (ancs i j a) g, List.mem_map.mpr ⟨g, hg, rfl⟩, hge⟩
      · right
        have hmemg : iou (ancs i j a) g ∈
            (anchorTriples rows cols k).map (fun t => iou (ancs t.1 t.2.1 t.2.2) g) :=
          List.mem_map.mpr ⟨(i, j, a), mem_anchorTriples _, rfl⟩
        have h1 : iou (ancs i j a) g
            ≤ listMax ((anchorTriples rows cols k).map (fun t => iou (ancs t.1 t.2.1 t.2.2) g)) :=
          le_listMax hmemg
        have h2 : listMax ((anchorTriples rows cols k).map (fun t => iou (ancs t.1 t.2.1 t.2.2) g))
            ≤ iou (ancs i j a) g := by
          apply listMax_le (List.ne_nil_of_mem hmemg)
          rintro x hx
          obtain ⟨t, ht, rfl⟩ := List.mem_map.mp hx
          exact hub t.1 t.2.1 t.2.2
        exact ⟨g, hg, le_antisymm h1 h2, lt_of_lt_of_le hioupos h1⟩
  · simp only [anchors_vs_gt, decide_eq_true_eq]
    rw [listMax_le_iff hmapne]
    constructor
    · intro h g hg
      exact h _ (List.mem_map.mpr ⟨g, hg, rfl⟩)
    · rintro h x hx
      obtain ⟨g, hg, rfl⟩ := List.mem_map.mp hx
      exact h g hg
  · simp only [anchors_vs_gt]
    have hmem := listMax_mem hmapne
    have hidx : (gtbs.map (fun g => iou (ancs i j a) g)).indexOf
        (listMax (gtbs.map (fun g => iou (ancs i j a) g)))
        < (gtbs.map (fun g => iou (ancs i j a) g)).length :=
      List.indexOf_lt_length.mpr hmem
    have hidx2 : (gtbs.map (fun g => iou (ancs i j a) g)).indexOf
        (listMax (gtbs.map (fun g => iou (ancs i j a) g))) < gtbs.length := by
      simpa using hidx
    have hgetd : gtbs.getD ((gtbs.map (fun g => iou (ancs i j a) g)).indexOf
        (listMax (gtbs.map (fun g => iou (ancs i j a) g)))) ⟨0, 0, 0, 0⟩
        = gtbs[(gtbs.map (fun g => iou (ancs i j a) g)).indexOf
            (listMax (gtbs.map (fun g => iou (ancs i j a) g)))] :=
      List.getD_eq_getElem gtbs _ hidx2
    have hval : (gtbs.map (fun g => iou (ancs i j a) g))[(gtbs.map
        (fun g => iou (ancs i j a) g)).indexOf
          (listMax (gtbs.map (fun g => iou (ancs i j a) g)))]
        = listMax (gtbs.map (fun g => iou (ancs i j a) g)) :=
      List.getElem_indexOf hidx
    rw [List.getElem_map] at hval
    refine ⟨gtbs[(gtbs.map (fun g => iou (ancs i j a) g)).indexOf
        (listMax (gtbs.map (fun g => iou (ancs i j a) g)))],
      List.getElem_mem hidx2, ?_, ?_⟩
    · intro g' hg'
      have hmem' : iou (ancs i j a) g' ∈ gtbs.map (fun g => iou (ancs i j a) g) :=
        List.mem_map.mpr ⟨g', hg', rfl⟩
      rw [hval]
      exact le_listMax hmem'
    · rw [hgetd]

/-- C2 witness: the statement instantiated on a 1 x 1 grid with one
anchor slot holding the unit square and one identical ground-truth box. -/
theorem anchors_vs_gt_spec_witness :
    ((@anchors_vs_gt 1 1 1 (fun x => x) (fun _ _ _ => ⟨0, 0, 1, 1⟩)
          [⟨0, 0, 1, 1⟩] (3/10) (7/10)).1 0 0 0 = true ↔
        ((∃ g ∈ [(⟨0, 0, 1, 1⟩ : Box)], 7/10 ≤ iou ⟨0, 0, 1, 1⟩ g)
          ∨ ∃ g ∈ [(⟨0, 0, 1, 1⟩ : Box)], 0 < iou ⟨0, 0, 1, 1⟩ g
              ∧ ∀ (_ : Fin 1) (_ : Fin 1) (_ : Fin 1),
                  iou ⟨0, 0, 1, 1⟩ g ≤ iou ⟨0, 0, 1, 1⟩ g))
      ∧ ((@anchors_vs_gt 1 1 1 (fun x => x) (fun _ _ _ => ⟨0, 0, 1, 1⟩)
            [⟨0, 0, 1, 1⟩] (3/10) (7/10)).2.1 0 0 0 = true ↔
          ∀ g ∈ [(⟨0, 0, 1, 1⟩ : Box)], iou ⟨0, 0, 1, 1⟩ g ≤ 3/10)
      ∧ ∃ g ∈ [(⟨0, 0, 1, 1⟩ : Box)],
          (∀ g' ∈ [(⟨0, 0, 1, 1⟩ : Box)], iou ⟨0, 0, 1, 1⟩ g' ≤ iou ⟨0, 0, 1, 1⟩ g)
          ∧ (@anchors_vs_gt 1 1 1 (fun x => x) (fun _ _ _ => ⟨0, 0, 1, 1⟩)
              [⟨0, 0, 1, 1⟩] (3/10) (7/10)).2.2 0 0 0
              = coords2param (fun x => x) ⟨0, 0, 1, 1⟩ g :=
  anchors_vs_gt_spec (fun x => x) (fun _ _ _ => ⟨0, 0, 1, 1⟩) [⟨0, 0, 1, 1⟩]
    (3/10) (7/10) (List.cons_ne_nil _ _) 0 0 0

/-- C4: for every admissible outcome of the two random draws,
filter_boxes returns masks whose positive count is at most num/2, whose
total count is at most num, which only clear bits of the inputs, and
which leave pos untouched unless its count exceeded num/2. -/
theorem filter_boxes_spec {ι : Type} [Fintype ι] [DecidableEq ι]
    (pos neg : ι → Bool) (num : ℕ) (selP selN : Finset ι)
    (heven : num % 2 = 0) (htwo : 2 ≤ num)
    (hP : (num : ℚ) / 2 < (maskCount pos : ℚ) →
      selP ⊆ (Finset.univ.filter fun i => pos i = true)
        ∧ selP.card = maskCount pos - num / 2)
    (hN : num < maskCount neg
          + (if (num : ℚ) / 2 < (maskCount pos : ℚ) then num / 2 else maskCount pos) →
      selN ⊆ (Finset.univ.filter fun i => neg i = true)
        ∧ selN.card = maskCount neg
            + (if (num : ℚ) / 2 < (maskCount pos : ℚ) then num / 2 else maskCount pos)
            - num) :
    maskCount (filter_boxes pos neg num selP selN).1 ≤ num / 2
      ∧ maskCount (filter_boxes pos neg num selP selN).1
          + maskCount (filter_boxes pos neg num selP selN).2 ≤ num
      ∧ (∀ i, (filter_boxes pos neg num selP selN).1 i = true → pos i = true)
      ∧ (∀ i, (filter_boxes pos neg num selP selN).2 i = true → neg i = true)
      ∧ (maskCount pos ≤ num / 2 → (filter_boxes pos neg num selP selN).1 = pos) := by
  by_cases hg1 : (num : ℚ) / 2 < (maskCount pos : ℚ)
  · have hnum2 : num < 2 * maskCount pos := (qhalf_lt_iff _ _).mp hg1
    obtain ⟨hsubP, hcardP⟩ := hP hg1
    simp only [filter_boxes, if_pos hg1] at hN ⊢
    have hcount1 : maskCount (clearSel pos selP) = num / 2 := by
      rw [maskCount_clearSel pos selP hsubP, hcardP]
      omega
    by_cases hg2 : num < maskCount neg + num / 2
    · obtain ⟨hsubN, hcardN⟩ := hN hg2
      simp only [if_pos hg2]
      have hcount2 : maskCount (clearSel neg selN)
          = maskCount neg - (maskCount neg + num / 2 - num) := by
        rw [maskCount_clearSel neg selN hsubN, hcardN]
      refine ⟨by omega, by omega, ?_, ?_, ?_⟩
      · intro i h
        exact clearSel_le pos selP i h
      · intro i h
        exact clearSel_le neg selN i h
      · intro hle
        exact absurd hle (by omega)
    · simp only [if_neg hg2]
      refine ⟨by omega, by omega, ?_, fun i h => h, ?_⟩
      · intro i h
        exact clearSel_le pos selP i h
      · intro hle
        exact absurd hle (by omega)
  · have hnum2 : ¬ num < 2 * maskCount pos := fun h => hg1 ((qhalf_lt_iff _ _).mpr h)
    simp only [filter_boxes, if_neg hg1] at hN ⊢
    by_cases hg2 : num < maskCount neg + maskCount pos
    · obtain ⟨hsubN, hcardN⟩ := hN hg2
      simp only [if_pos hg2]
      have hcount2 : maskCount (clearSel neg selN)
          = maskCount neg - (maskCount neg + maskCount pos - num) := by
        rw [maskCount_clearSel neg selN hsubN, hcardN]
      refine ⟨by omega, by omega, fun i h => h, ?_, fun _ => trivial⟩
      intro i h
      exact clearSel_le neg selN i h
    · simp only [if_neg hg2]
      exact ⟨by omega, by omega, fun i h => h, fun i h => h, fun _ => trivial⟩

/-- C4 witness: four anchor slots, three of them positive and one
negative, num = 2; the draw removes the positive slots 0 and 1, capping
the positive count at num/2 = 1 and leaving the negatives alone. -/
theorem filter_boxes_spec_witness :
    maskCount (filter_boxes (fun i : Fin 4 => decide (i.val < 3))
          (fun i : Fin 4 => decide (i.val = 3)) 2 {0, 1} ∅).1 ≤ 2 / 2
      ∧ maskCount (filter_boxes (fun i : Fin 4 => decide (i.val < 3))
            (fun i : Fin 4 => decide (i.val = 3)) 2 {0, 1} ∅).1
          + maskCount (filter_boxes (fun i : Fin 4 => decide (i.val < 3))
              (fun i : Fin 4 => decide (i.val = 3)) 2 {0, 1} ∅).2 ≤ 2
      ∧ (∀ i, (filter_boxes (fun i : Fin 4 => decide (i.val < 3))
            (fun i : Fin 4 => decide (i.val = 3)) 2 {0, 1} ∅).1 i = true
          → (fun i : Fin 4 => decide (i.val < 3)) i = true)
      ∧ (∀ i, (filter_boxes (fun i : Fin 4 => decide (i.val < 3))
            (fun i : Fin 4 => decide (i.val = 3)) 2 {0, 1} ∅).2 i = true
          → (fun i : Fin 4 => decide (i.val = 3)) i = true)
      ∧ (maskCount (fun i : Fin 4 => decide (i.val < 3)) ≤ 2 / 2
          → (filter_boxes (fun i : Fin 4 => decide (i.val < 3))
              (fun i : Fin 4 => decide (i.val = 3)) 2 {0, 1} ∅).1
            = (fun i : Fin 4 => decide (i.val < 3))) := by
  have hmp : maskCount (fun i : Fin 4 => decide (i.val < 3)) = 3 := by decide
  have hguard : ((2 : ℕ) : ℚ) / 2
      < ((maskCount (fun i : Fin 4 => decide (i.val < 3)) : ℕ) : ℚ) := by
    rw [hmp]; norm_num
  exact filter_boxes_spec (fun i : Fin 4 => decide (i.val < 3))
    (fun i : Fin 4 => decide (i.val = 3)) 2 {0, 1} ∅
    (by decide) (by decide)
    (fun _ => ⟨by decide, by decide⟩)
    (fun h => absurd h (by rw [if_pos hguard]; decide))

/-- Channels [0, k) of y_cls read the positive mask. -/
theorem datagen_y_cls_lo {rows cols k : ℕ}
    (pos neg : Fin rows → Fin cols → Fin k → Bool)
    (i : Fin rows) (j : Fin cols) (a : Fin k) :
    datagen_y_cls pos neg i j ⟨a.val, by omega⟩ = b2q (pos i j a) := by
  simp only [datagen_y_cls]
  rw [dif_pos a.isLt]

/-- Channels [k, 2k) of y_cls read the negative mask. -/
theorem datagen_y_cls_hi {rows cols k : ℕ}
    (pos neg : Fin rows → Fin cols → Fin k → Bool)
    (i : Fin rows) (j : Fin cols) (a : Fin k) :
    datagen_y_cls pos neg i j ⟨k + a.val, by omega⟩ = b2q (neg i j a) := by
  simp only [datagen_y_cls]
  rw [dif_neg (by omega)]
  have h : (⟨k + a.val - k, by omega⟩ : Fin k) = a := by
    apply Fin.ext
    simp
  rw [h]

/-- Channels [0, 4k) of y_regr read the positive mask at anchor c/4. -/
theorem datagen_y_regr_lo {rows cols k : ℕ}
    (pos : Fin rows → Fin cols → Fin k → Bool)
    (gtbs : Fin rows → Fin cols → Fin k → Fin 4 → ℚ)
    (i : Fin rows) (j : Fin cols) (a : Fin k) (r : Fin 4) :
    datagen_y_regr pos gtbs i j ⟨4 * a.val + r.val, by omega⟩ = b2q (pos i j a) := by
  simp only [datagen_y_regr]
  rw [dif_pos (by omega)]
  have h : (⟨(4 * a.val + r.val) / 4, by omega⟩ : Fin k) = a := by
    apply Fin.ext
    simp only []
    omega
  rw [h]

/-- Channels [4k, 8k) of y_regr read the reshaped regression
parameters at slot ((c - 4k)/4, (c - 4k)%4). -/
theorem datagen_y_regr_hi {rows cols k : ℕ}
    (pos : Fin rows → Fin cols → Fin k → Bool)
    (gtbs : Fin rows → Fin cols → Fin k → Fin 4 → ℚ)
    (i : Fin rows) (j : Fin cols) (a : Fin k) (r : Fin 4) :
    datagen_y_regr pos gtbs i j ⟨4 * k + (4 * a.val + r.val), by omega⟩
      = gtbs i j a r := by
  simp only [datagen_y_regr]
  rw [dif_neg (by omega)]
  have h1 : (⟨(4 * k + (4 * a.val + r.val) - 4 * k) / 4, by omega⟩ : Fin k) = a := by
    apply Fin.ext
    simp only []
    omega
  have h2 : (⟨(4 * k + (4 * a.val + r.val) - 4 * k) % 4, by omega⟩ : Fin 4) = r := by
    apply Fin.ext
    simp only []
    omega
  rw [h1, h2]

/-- C7: the dataset generator's channel layout matches the losses.
The y_cls tensor holds the positive mask in channels [0, k) and the
negative mask in channels [k, 2k), exactly the slices rpn_cls_loss
reads; feeding y_regr (positive mask repeated fourfold, then the
encoded parameters) to rpn_regr_loss yields the smooth-L1 penalty
summed exactly over the anchors whose positive mask bit is set. -/
theorem datagen_layout_spec (log : ℚ → ℚ) (k rows cols : ℕ)
    (pos neg : Fin rows → Fin cols → Fin k → Bool)
    (gtbs : Fin rows → Fin cols → Fin k → Fin 4 → ℚ)
    (ppred : Grid rows cols k) (ypred : Grid rows cols (4 * k)) :
    (∀ (i : Fin rows) (j : Fin cols) (a : Fin k),
        datagen_y_cls pos neg i j ⟨a.val, by omega⟩ = b2q (pos i j a)
          ∧ datagen_y_cls pos neg i j ⟨k + a.val, by omega⟩ = b2q (neg i j a))
      ∧ (∀ (i : Fin rows) (j : Fin cols) (a : Fin k) (r : Fin 4),
          datagen_y_regr pos gtbs i j ⟨4 * a.val + r.val, by omega⟩ = b2q (pos i j a)
            ∧ datagen_y_regr pos gtbs i j ⟨4 * k + (4 * a.val + r.val), by omega⟩
                = gtbs i j a r)
      ∧ rpn_cls_loss log k (datagen_y_cls pos neg) ppred
          = ∑ i, ∑ j, ∑ a : Fin k,
              (- b2q (pos i j a) * log (1/10000 + ppred i j a)
                - b2q (neg i j a) * log (1/10000 + (1 - ppred i j a)))
      ∧ rpn_regr_loss k (datagen_y_regr pos gtbs) ypred
          = ∑ i, ∑ j, ∑ a : Fin k,
              (if pos i j a
                then ∑ r : Fin 4,
                  smoothL1 (gtbs i j a r - ypred i j ⟨4 * a.val + r.val, by omega⟩)
                else 0) := by
  refine ⟨?_, ?_, ?_, ?_⟩
  · intro i j a
    exact ⟨datagen_y_cls_lo pos neg i j a, datagen_y_cls_hi pos neg i j a⟩
  · intro i j a r
    exact ⟨datagen_y_regr_lo pos gtbs i j a r, datagen_y_regr_hi pos gtbs i j a r⟩
  · unfold rpn_cls_loss rpn_cls_loss_core
    refine Finset.sum_congr rfl fun i _ => Finset.sum_congr rfl fun j _ =>
      Finset.sum_congr rfl fun c _ => ?_
    show - datagen_y_cls pos neg i j ⟨c.val, by omega⟩ * log (1/10000 + ppred i j c)
        - datagen_y_cls pos neg i j ⟨k + c.val, by omega⟩
            * log (1/10000 + (1 - ppred i j c)) = _
    rw [datagen_y_cls_lo pos neg i j c, datagen_y_cls_hi pos neg i j c]
  · have hcore : rpn_regr_loss k (datagen_y_regr pos gtbs) ypred
        = ∑ i, ∑ j, ∑ c : Fin (4 * k),
            datagen_y_regr pos gtbs i j ⟨c.val, by omega⟩
              * smoothL1 (datagen_y_regr pos gtbs i j ⟨4 * k + c.val, by omega⟩
                  - ypred i j c) := by
      unfold rpn_regr_loss rpn_regr_loss_core
      exact Finset.sum_congr rfl fun i _ => Finset.sum_congr rfl fun j _ =>
        Finset.sum_congr rfl fun c _ => huber_term_eq _ _
    rw [hcore]
    refine Finset.sum_congr rfl fun i _ => Finset.sum_congr rfl fun j _ => ?_
    rw [sum_fin_four_mul]
    refine Finset.sum_congr rfl fun a _ => ?_
    have hterm : ∀ r : Fin 4,
        datagen_y_regr pos gtbs i j ⟨4 * a.val + r.val, by omega⟩
            * smoothL1 (datagen_y_regr pos gtbs i j
                  ⟨4 * k + (4 * a.val + r.val), by omega⟩
                - ypred i j ⟨4 * a.val + r.val, by omega⟩)
          = b2q (pos i j a)
              * smoothL1 (gtbs i j a r - ypred i j ⟨4 * a.val + r.val, by omega⟩) := by
      intro r
      rw [datagen_y_regr_lo pos gtbs i j a r, datagen_y_regr_hi pos gtbs i j a r]
    trans (∑ r : Fin 4,
      b2q (pos i j a) * smoothL1 (gtbs i j a r - ypred i j ⟨4 * a.val + r.val, by omega⟩))
    · exact Finset.sum_congr rfl fun r _ => hterm r
    · by_cases hp : pos i j a
      · simp [hp, b2q]
      · simp [hp, b2q]

/-- C10: the shuffle flag of datagen is dead: the generator's yields
for shuffle=True and shuffle=False coincide (given the same dataset,
anchors and random draws), and the visited image indices are exactly
start, start+1, ..., stop-1 in strictly increasing order. -/
theorem datagen_shuffle_spec {α : Type} (log : ℚ → ℚ) {rows cols k : ℕ}
    (start stop : ℕ) (ancs : Fin rows → Fin cols → Fin k → Box)
    (csv : List GtRow) (img : ℕ → α)
    (selP selN : ℕ → Finset (Fin rows × Fin cols × Fin k)) :
    datagen log start stop ancs true csv img selP selN
        = datagen log start stop ancs false csv img selP selN
      ∧ List.Sorted (· < ·) (datagenIdx start stop)
      ∧ ∀ n, n ∈ datagenIdx start stop ↔ start ≤ n ∧ n < stop := by
  refine ⟨rfl, sorted_range' start (stop - start), ?_⟩
  intro n
  unfold datagenIdx
  rw [List.mem_range']
  constructor
  · rintro ⟨i, hi, rfl⟩
    omega
  · intro h
    exact ⟨n - start, by omega, by omega⟩
